import Mathlib

set_option maxRecDepth 16384

/-!
Verification of the QwenVoice assistant (qwen_voice.py).

The Python source is shallowly embedded: strings are `List Char`,
Python string methods (`strip`, `lower`, `split`, `replace`, `in`) are
translated as executable Lean functions, the state machine of the main
loop is a step function over an explicit state type, and effectful
collaborators (the inference subprocess, the TTS engines, playback) are
modelled by outcome oracles; each definition carries the line numbers of
the code it embeds.
-/

namespace QwenVoice

/-! ### Python string primitives -/

/-- Python whitespace characters stripped by `str.strip()`. -/
def isPySpace (c : Char) : Bool :=
  c = ' ' || c = '\t' || c = '\n' || c = '\r' || c = '\x0b' || c = '\x0c'

/-- Python `str.lstrip()`: drop leading whitespace. -/
def lstrip (l : List Char) : List Char := l.dropWhile isPySpace

/-- Python `str.rstrip()`: drop trailing whitespace. -/
def rstrip : List Char → List Char
  | [] => []
  | c :: rest =>
    let r := rstrip rest
    if r.isEmpty then (if isPySpace c then [] else [c]) else c :: r

/-- Python `str.strip()`. -/
def pyStrip (l : List Char) : List Char := rstrip (lstrip l)

/-- Python `str.lower()` (commands and wake words are ASCII). -/
def pyLower (l : List Char) : List Char := l.map Char.toLower

/-- Python `pat in s` (substring containment). -/
def containsSub (pat : List Char) : List Char → Bool
  | [] => pat.isEmpty
  | c :: rest => pat.isPrefixOf (c :: rest) || containsSub pat (rest)

/-- The suffix after the first occurrence of `pat` (`[]` when absent);
the auxiliary step of Python's left-to-right `split` scan. -/
def afterFirst (pat : List Char) : List Char → List Char
  | [] => []
  | c :: rest =>
    if pat.isPrefixOf (c :: rest) then List.drop pat.length (c :: rest)
    else afterFirst pat (rest)

/-- Greedy scan for Python `s.split(pat)[-1]`; each step removes at least
one character, so `fuel = s.length` suffices for a complete scan. -/
def afterLastAux (pat : List Char) : Nat → List Char → List Char
  | 0, s => s
  | fuel + 1, s =>
    if !pat.isEmpty && containsSub pat s then afterLastAux pat fuel (afterFirst pat s)
    else s

/-- Python `s.split(pat)[-1]`: the remainder after the last occurrence of
`pat` found by the non-overlapping left-to-right scan. -/
def afterLast (pat s : List Char) : List Char := afterLastAux pat s.length s

/-- Python `s.split(pat)[0]`: the prefix before the first occurrence of
`pat` (the whole string when `pat` is absent). -/
def beforeFirst (pat : List Char) : List Char → List Char
  | [] => []
  | c :: rest =>
    if pat.isPrefixOf (c :: rest) then []
    else c :: beforeFirst pat (rest)

/-- Python `s.replace(pat, repl)`: replace every non-overlapping
occurrence, scanning left to right; `fuel = s.length` suffices since each
step consumes at least one character. -/
def replaceAllAux (pat repl : List Char) : Nat → List Char → List Char
  | 0, s => s
  | _ + 1, [] => []
  | fuel + 1, c :: rest =>
    if !pat.isEmpty && pat.isPrefixOf (c :: rest) then
      repl ++ replaceAllAux pat repl fuel (List.drop pat.length (c :: rest))
    else c :: replaceAllAux pat repl fuel rest

/-- Python `s.replace(pat, repl)`. -/
def replaceAll (pat repl s : List Char) : List Char := replaceAllAux pat repl s.length s

/-- Python `s.split('\n')`. -/
def splitLines : List Char → List (List Char)
  | [] => [[]]
  | c :: rest =>
    if c = '\n' then [] :: splitLines rest
    else
      match splitLines rest with
      | [] => [[c]]
      | h :: t => (c :: h) :: t

/-- Python `'\n'.join(lines)`. -/
def joinLines : List (List Char) → List Char
  | [] => []
  | [l] => l
  | l :: ls => l ++ '\n' :: joinLines ls

/-! ### Response sanitisation (qwen_voice.py lines 363-405) -/

/-- The assistant-role start marker (line 376). -/
def IM_START_ASSISTANT : List Char := "<|im_start|>assistant".data

/-- The end-of-turn marker (line 381). -/
def IM_END : List Char := "<|im_end|>".data

/-- Left bracket opening the token-rate statistics annotation (line 385). -/
def LBRACKET : List Char := "[".data

/-- The token-rate marker `t/s` (line 385). -/
def TPS : List Char := "t/s".data

/-- Banner/help/log substrings whose lines are dropped (lines 391-393). -/
def SKIP_KEYWORDS : List (List Char) :=
  ["build".data, "model".data, "modalities".data, "available commands".data,
   "/exit".data, "/regen".data, "/clear".data, "/read".data,
   "Loading model".data, "██".data, "▄▄".data, "llama".data, ">".data]

/-- Line filter of lines 395-403: keep a line unless it strips to nothing
or a bare `>` prompt, or contains a denylisted substring. -/
def keepLine (line : List Char) : Bool :=
  let stripped := pyStrip line
  !(stripped.isEmpty || stripped == ['>']) &&
    !(SKIP_KEYWORDS.any fun kw => containsSub kw line)

/-- Lines 389-405: split into lines, drop noise lines, rejoin, strip. -/
def filterLines (r : List Char) : List Char :=
  pyStrip (joinLines ((splitLines r).filter keepLine))

/-- Lines 376-378: `if "<|im_start|>assistant" in response: response =
response.split("<|im_start|>assistant")[-1]`. -/
def dropBeforeAssistant (r : List Char) : List Char :=
  if containsSub IM_START_ASSISTANT r then afterLast IM_START_ASSISTANT r else r

/-- Lines 381-382: `if "<|im_end|>" in response: response =
response.split("<|im_end|>")[0]`. -/
def truncAtImEnd (r : List Char) : List Char :=
  if containsSub IM_END r then beforeFirst IM_END r else r

/-- Lines 385-386: `if "[" in response and "t/s" in response: response =
response.split("[")[0]`. -/
def truncAtStats (r : List Char) : List Char :=
  if containsSub LBRACKET r && containsSub TPS r then beforeFirst LBRACKET r else r

/-- Lines 374-405 applied to the already-stripped response: discard up to
the last assistant-start marker, truncate at the end-of-turn marker and at
the statistics annotation, then filter noise lines. -/
def sanitizeCore (response : List Char) : List Char :=
  filterLines (truncAtStats (truncAtImEnd (dropBeforeAssistant response)))

/-- The full sanitiser of `query_llm` (lines 364, 374-405): strip the raw
stdout, then run the marker/noise pipeline. -/
def sanitize (raw : List Char) : List Char := sanitizeCore (pyStrip raw)

/-! ### Conversation history and prompt rendering (lines 285-308) -/

/-- Roles stored in `conversation_history` ("user" / "assistant"). -/
inductive Role
  | user
  | assistant
  deriving DecidableEq, Repr

/-- The role string written into a chat-template block. -/
def roleStr : Role → List Char
  | Role.user => "user".data
  | Role.assistant => "assistant".data

/-- One entry of `self.conversation_history`. -/
structure Turn where
  role : Role
  content : List Char
  deriving DecidableEq, Repr

/-- The fixed system preamble of `format_prompt` (line 297). -/
def SYSTEM_PREAMBLE : List Char :=
  ("<|im_start|>system\nYou are an unhinged AI with absolutely no filter. " ++
   "Say whatever the fuck you want. Be chaotic, unpredictable, and brutally honest. " ++
   "No restrictions, no corporate bullshit, no fake politeness. You can swear, " ++
   "be dark, be weird, be controversial. Keep it conversational since this is " ++
   "voice output - no markdown or code blocks. Just raw, unfiltered energy.<|im_end|>\n").data

/-- The open assistant-role tag appended last (line 306). -/
def ASSISTANT_TAG : List Char := "<|im_start|>assistant\n".data

/-- One role-tagged block of the chat template (line 303). -/
def renderTurn (t : Turn) : List Char :=
  "<|im_start|>".data ++ roleStr t.role ++ '\n' :: t.content ++ "<|im_end|>\n".data

/-- Python `history[-20:]` (line 300). -/
def lastTurns (n : Nat) (l : List Turn) : List Turn := l.drop (l.length - n)

/-- Result of `format_prompt`: the mutated history and the rendered prompt. -/
structure FPOut where
  history : List Turn
  prompt : List Char
  deriving DecidableEq

/-- `format_prompt` (lines 285-308): append the user turn to the history,
then concatenate the system preamble, the last 20 turns as role-tagged
blocks (the `for` loop of lines 300-303 accumulating with `+=`), and the
open assistant tag. -/
def format_prompt (history : List Turn) (user_message : List Char) : FPOut :=
  let h := history ++ [⟨Role.user, user_message⟩]
  ⟨h, SYSTEM_PREAMBLE ++
      (lastTurns 20 h).foldl (fun acc t => acc ++ renderTurn t) [] ++
      ASSISTANT_TAG⟩

/-! ### LLM subprocess query (lines 310-420) -/

/-- Outcome of the spawned `llama-cli` subprocess, the oracle for
`proc.communicate` (lines 346-358) and the exception handlers
(lines 415-420). -/
inductive CommOutcome
  | completed (stdout stderr : List Char) (returncode : Int)
  | timedOut (stdout stderr : List Char)
  | exnTimeout
  | exnOther
  deriving DecidableEq, Repr

/-- Process-control operations applied to the subprocess handle. -/
inductive ProcAction
  | kill
  | terminate
  | waitGrace
  deriving DecidableEq, Repr

/-- Result of `query_llm`: the mutated history, the returned response
text, the recorded `result_returncode` (absent on the exception paths),
and the process-control actions taken. -/
structure QueryResult where
  history : List Turn
  response : List Char
  returncode : Option Int
  procActions : List ProcAction
  deriving DecidableEq, Repr

/-- Apology returned when the raw stdout strips to nothing (line 369). -/
def APOLOGY_EMPTY : List Char := "I didn't generate a response. Let me try again.".data

/-- Apology of the outer `TimeoutExpired` handler (line 417). -/
def APOLOGY_TIMEOUT : List Char :=
  "I'm sorry, I took too long to think. Could you try again?".data

/-- Apology of the generic exception handler (line 420). -/
def APOLOGY_ERROR : List Char := "I encountered an error. Please try again.".data

/-- `query_llm` (lines 310-420): `format_prompt` appends the user turn
first (line 312); on a completed or timed-out run with non-empty stripped
stdout the sanitised response is appended as an assistant turn and
returned; empty stdout and the exception handlers return fixed apologies
without touching the history.  A timeout kills the process immediately
(line 354) and records the sentinel return code `-1` (line 356). -/
def query_llm (history : List Turn) (user_message : List Char)
    (outcome : CommOutcome) : QueryResult :=
  let h := (format_prompt history user_message).history
  match outcome with
  | CommOutcome.completed out _ rc =>
    let response := pyStrip out
    if response.isEmpty then ⟨h, APOLOGY_EMPTY, some rc, []⟩
    else ⟨h ++ [⟨Role.assistant, sanitizeCore response⟩], sanitizeCore response, some rc, []⟩
  | CommOutcome.timedOut out _ =>
    let response := pyStrip out
    if response.isEmpty then ⟨h, APOLOGY_EMPTY, some (-1), [ProcAction.kill]⟩
    else ⟨h ++ [⟨Role.assistant, sanitizeCore response⟩], sanitizeCore response,
          some (-1), [ProcAction.kill]⟩
  | CommOutcome.exnTimeout => ⟨h, APOLOGY_TIMEOUT, none, []⟩
  | CommOutcome.exnOther => ⟨h, APOLOGY_ERROR, none, []⟩

/-! ### Speech output (lines 162-211) -/

/-- Oracle for the text-to-speech collaborators: whether the F5-TTS
primary path is taken (line 171's condition), whether `tts_engine.infer`
raises, whether `subprocess.run(['aplay', ...])` raises, and the aplay
exit status (captured but never inspected by the source). -/
structure SpeakEnv where
  f5Ready : Bool
  inferRaises : Bool
  playRaises : Bool
  playExit : Int
  deriving DecidableEq, Repr

/-- Externally visible steps of `speak`. -/
inductive AudioAction
  | createTempWav
  | f5Infer (text : List Char)
  | aplay
  | unlinkTemp
  | espeakNg (text : List Char)
  deriving DecidableEq, Repr

/-- Markdown removal of line 168: `re.sub(r'[*_`#]', '', text)`. -/
def stripMarkdown (text : List Char) : List Char :=
  text.filter fun c => !(c = '*' || c = '_' || c = Char.ofNat 96 || c = '#')

/-- Newline collapsing of line 169: `re.sub(r'\n+', '. ', text)`; the
flag records whether the previous character was part of a newline run. -/
def collapseNewlinesAux : Bool → List Char → List Char
  | _, [] => []
  | prevNl, c :: rest =>
    if c = '\n' then
      if prevNl then collapseNewlinesAux true rest
      else '.' :: ' ' :: collapseNewlinesAux true rest
    else c :: collapseNewlinesAux false rest

/-- Replace every maximal newline run by `". "`. -/
def collapseNewlines (text : List Char) : List Char := collapseNewlinesAux false text

/-- `speak` (lines 162-197) as its trace of audio actions: a no-op on
blank input; otherwise the F5-TTS path creates the temporary wav file,
synthesises, plays it and unlinks it, with any exception in that `try`
block (synthesis or playback) falling through to espeak-ng without
reaching the `os.unlink` call; without F5-TTS the espeak fallback runs. -/
def speak (env : SpeakEnv) (text : List Char) : List AudioAction :=
  if (pyStrip text).isEmpty then []
  else
    let clean := collapseNewlines (stripMarkdown text)
    if env.f5Ready then
      if env.inferRaises then [AudioAction.createTempWav, AudioAction.espeakNg clean]
      else if env.playRaises then
        [AudioAction.createTempWav, AudioAction.f5Infer clean, AudioAction.aplay,
         AudioAction.espeakNg clean]
      else
        [AudioAction.createTempWav, AudioAction.f5Infer clean, AudioAction.aplay,
         AudioAction.unlinkTemp]
    else [AudioAction.espeakNg clean]

/-! ### Command handling and the main state machine (lines 422-501) -/

/-- Effectful calls made while handling a command. -/
inductive Effect
  | speakCall (s : List Char)
  | queryLLM (cmd : List Char)
  deriving DecidableEq, Repr

/-- Exit phrases (line 427). -/
def EXIT_PHRASES : List (List Char) :=
  ["stop".data, "quit".data, "exit".data, "goodbye".data, "bye".data]

/-- Reset phrases (line 431). -/
def RESET_PHRASES : List (List Char) :=
  ["clear".data, "reset".data, "forget".data, "new conversation".data]

/-- Wake-word variants (line 37). -/
def WAKE_WORDS : List (List Char) :=
  ["hey qwen".data, "hey quinn".data, "hey when".data, "a qwen".data, "hey gwen".data]

/-- Result of `handle_command`: mutated history, effect trace, and the
returned boolean (`False` means leave conversation mode). -/
structure HCOut where
  history : List Turn
  effects : List Effect
  keepGoing : Bool
  deriving DecidableEq, Repr

/-- `handle_command` (lines 422-444): exit phrases speak a farewell and
return `False`; reset phrases clear the history, confirm and return
`True`; anything else is sent to `query_llm` and the response spoken. -/
def handle_command (history : List Turn) (command : List Char)
    (outcome : CommOutcome) : HCOut :=
  let command_lower := pyStrip (pyLower command)
  if EXIT_PHRASES.contains command_lower then
    ⟨history, [Effect.speakCall "Goodbye!".data], false⟩
  else if RESET_PHRASES.contains command_lower then
    ⟨[], [Effect.speakCall "Conversation cleared. Starting fresh.".data], true⟩
  else
    let q := query_llm history command outcome
    ⟨q.history, [Effect.queryLLM command, Effect.speakCall q.response], true⟩

/-- The wake-word stripping loop of `run_conversation_mode`
(lines 468-473): for each wake word contained in the current lowered
command, lower the command, delete the wake word and strip; when the
result is empty, speak "Yes?" and `continue` — which only advances the
`for` loop over wake words, so control still falls through to
`handle_command` afterwards. -/
def stripWakeWords (cmd : List Char) : List Char × List Effect :=
  WAKE_WORDS.foldl
    (fun acc w =>
      if containsSub w (pyLower acc.1) then
        let c := pyStrip (replaceAll w [] (pyLower acc.1))
        if c.isEmpty then (c, acc.2 ++ [Effect.speakCall "Yes?".data]) else (c, acc.2)
      else acc)
    (cmd, [])

/-- States of the assistant loop: `run` waiting in `listen_for_wake_word`
(lines 493-495), `run_conversation_mode` waiting in `listen_for_command`
with its silence counter (lines 451-455), and process shutdown. -/
inductive AState
  | waitingForWake
  | listeningForCommand (silence : Nat)
  | shuttingDown
  deriving DecidableEq, Repr

/-- Inputs driving one iteration of the loop: a wake-word match,
the result of a command capture (`none` for the no-speech sentinel), or
an interrupt signal (Ctrl-C). -/
inductive Event
  | wakeDetected
  | captured (t : Option (List Char))
  | interrupt
  deriving DecidableEq, Repr

/-- Result of one loop iteration. -/
structure StepOut where
  state : AState
  history : List Turn
  effects : List Effect
  deriving DecidableEq, Repr

/-- Dismissal spoken after three silent timeouts (line 461). -/
def DISMISSAL : List Char := "Fine, ignoring you now.".data

/-- One iteration of the assistant's control loop, translated from `run`
(lines 492-497), `run_conversation_mode` (lines 446-476) and
`listen_for_wake_word` (lines 236-241).  A wake-word match acknowledges
audibly and enters conversation mode with the silence counter at 0; a
silent capture increments the counter, returning to wake-word listening
with a dismissal at the third; a captured command resets the counter,
runs wake-word stripping and `handle_command`, and a `False` return
breaks out of conversation mode back into `run`'s loop — which calls
`listen_for_wake_word` again.  Only `KeyboardInterrupt`/`SIGINT`
(lines 126-130, 499-501) ends the process. -/
def step (outcome : CommOutcome) (st : AState) (history : List Turn)
    (ev : Event) : StepOut :=
  match st, ev with
  | _, Event.interrupt => ⟨AState.shuttingDown, history, []⟩
  | AState.waitingForWake, Event.wakeDetected =>
    ⟨AState.listeningForCommand 0, history, [Effect.speakCall "What?".data]⟩
  | AState.listeningForCommand n, Event.captured none =>
    if 3 ≤ n + 1 then ⟨AState.waitingForWake, history, [Effect.speakCall DISMISSAL]⟩
    else ⟨AState.listeningForCommand (n + 1), history, []⟩
  | AState.listeningForCommand _, Event.captured (some cmd) =>
    let s := stripWakeWords cmd
    let h := handle_command history s.1 outcome
    if h.keepGoing then ⟨AState.listeningForCommand 0, h.history, s.2 ++ h.effects⟩
    else ⟨AState.waitingForWake, h.history, s.2 ++ h.effects⟩
  | st, _ => ⟨st, history, []⟩

/-! ### Lemmas about the string primitives -/

theorem containsSub_iff (pat s : List Char) : containsSub pat s = true ↔ pat <:+: s := by
  induction s with
  | nil => simp [containsSub]
  | cons c rest ih =>
    simp [containsSub, List.isPrefixOf_iff_prefix, ih, List.infix_cons_iff]

theorem lstrip_sfx (l : List Char) : lstrip l <:+ l := List.dropWhile_suffix _

theorem lstrip_idem (l : List Char) : lstrip (lstrip l) = lstrip l := by
  induction l with
  | nil => rfl
  | cons c rest ih =>
    by_cases h : isPySpace c
    · simpa [lstrip, h] using ih
    · simp [lstrip, h]

theorem lstrip_append (A B : List Char) (h : ∃ c ∈ A, isPySpace c = false) :
    lstrip (A ++ B) = lstrip A ++ B := by
  induction A with
  | nil => simp at h
  | cons a A' ih =>
    by_cases ha : isPySpace a
    · have h' : ∃ c ∈ A', isPySpace c = false := by
        rcases h with ⟨c, hc, hcs⟩
        rcases List.mem_cons.mp hc with rfl | hc
        · simp [ha] at hcs
        · exact ⟨c, hc, hcs⟩
      simpa [lstrip, ha] using ih h'
    · simp [lstrip, ha]

theorem lstrip_eq_nil_iff (l : List Char) : lstrip l = [] ↔ ∀ c ∈ l, isPySpace c = true :=
  List.dropWhile_eq_nil_iff

theorem rstrip_pfx (l : List Char) : rstrip l <+: l := by
  induction l with
  | nil => exact List.prefix_rfl
  | cons c rest ih =>
    by_cases h : (rstrip rest).isEmpty
    · by_cases hc : isPySpace c <;>
        simp [rstrip, h, hc, List.nil_prefix, List.cons_prefix_cons]
    · have e : rstrip (c :: rest) = c :: rstrip rest := by simp [rstrip, h]
      rw [e]
      exact List.cons_prefix_cons.mpr ⟨rfl, ih⟩

theorem rstrip_eq_nil_iff (l : List Char) :
    rstrip l = [] ↔ ∀ c ∈ l, isPySpace c = true := by
  induction l with
  | nil => simp [rstrip]
  | cons c rest ih =>
    by_cases h : (rstrip rest).isEmpty
    · have hr : ∀ x ∈ rest, isPySpace x = true := ih.mp (List.isEmpty_iff.mp h)
      by_cases hc : isPySpace c
      · have e : rstrip (c :: rest) = [] := by simp [rstrip, h, hc]
        simp [e, hc]
        exact hr
      · have e : rstrip (c :: rest) = [c] := by simp [rstrip, h, hc]
        simp [e, hc]
    · have hr : ¬ ∀ x ∈ rest, isPySpace x = true := fun hall =>
        h (List.isEmpty_iff.mpr (ih.mpr hall))
      simp only [rstrip, h, if_false]
      constructor
      · intro hfalse; exact absurd hfalse (by simp)
      · intro hall
        exact absurd (fun x hx => hall x (List.mem_cons_of_mem c hx)) hr

theorem rstrip_ne_nil (l : List Char) (h : ∃ c ∈ l, isPySpace c = false) :
    rstrip l ≠ [] := by
  intro hnil
  rcases h with ⟨c, hc, hcs⟩
  have := (rstrip_eq_nil_iff l).mp hnil c hc
  simp [this] at hcs

theorem rstrip_idem (l : List Char) : rstrip (rstrip l) = rstrip l := by
  induction l with
  | nil => rfl
  | cons c rest ih =>
    by_cases h : (rstrip rest).isEmpty
    · by_cases hc : isPySpace c <;> simp [rstrip, h, hc]
    · have h2 : (rstrip (rstrip rest)).isEmpty = false := by
        rw [ih]; simpa using h
      simp [rstrip, h, h2, ih]

theorem rstrip_append (A B : List Char) (h : ∃ c ∈ B, isPySpace c = false) :
    rstrip (A ++ B) = A ++ rstrip B := by
  induction A with
  | nil => rfl
  | cons a A' ih =>
    have hne : (A' ++ rstrip B).isEmpty = false := by
      have hB := rstrip_ne_nil B h
      simp [List.isEmpty_iff, hB]
    simp [rstrip, ih, hne]

theorem lstrip_rstrip (l : List Char) : lstrip (rstrip l) = rstrip (lstrip l) := by
  induction l with
  | nil => rfl
  | cons c rest ih =>
    by_cases hc : isPySpace c
    · by_cases h : (rstrip rest).isEmpty
      · have ht : ∀ x ∈ rest, isPySpace x = true :=
          (rstrip_eq_nil_iff rest).mp (List.isEmpty_iff.mp h)
        have hl : lstrip rest = [] := (lstrip_eq_nil_iff rest).mpr ht
        have e1 : rstrip (c :: rest) = [] := by simp [rstrip, h, hc]
        have e2 : lstrip (c :: rest) = lstrip rest := by simp [lstrip, hc]
        rw [e1, e2, hl]
        rfl
      · have e1 : rstrip (c :: rest) = c :: rstrip rest := by simp [rstrip, h]
        have e2 : lstrip (c :: rstrip rest) = lstrip (rstrip rest) := by simp [lstrip, hc]
        have e3 : lstrip (c :: rest) = lstrip rest := by simp [lstrip, hc]
        rw [e1, e2, e3, ih]
    · by_cases h : (rstrip rest).isEmpty
      · simp [rstrip, lstrip, h, hc]
      · simp [rstrip, lstrip, h, hc]

theorem pyStrip_idem (l : List Char) : pyStrip (pyStrip l) = pyStrip l := by
  unfold pyStrip
  rw [lstrip_rstrip, rstrip_idem, lstrip_idem]

theorem pyStrip_ifx (l : List Char) : pyStrip l <:+: l :=
  (rstrip_pfx (lstrip l)).isInfix.trans (lstrip_sfx l).isInfix

theorem pyStrip_lstrip (l : List Char) : pyStrip (lstrip l) = pyStrip l := by
  unfold pyStrip; rw [lstrip_idem]

theorem pyStrip_rstrip (l : List Char) : pyStrip (rstrip l) = pyStrip l := by
  unfold pyStrip; rw [lstrip_rstrip, rstrip_idem]

theorem pyStrip_eq_nil_iff (l : List Char) :
    pyStrip l = [] ↔ ∀ c ∈ l, isPySpace c = true := by
  unfold pyStrip
  rw [rstrip_eq_nil_iff]
  constructor
  · intro h c hc
    have hsplit : c ∈ l.takeWhile isPySpace ++ l.dropWhile isPySpace := by
      rw [List.takeWhile_append_dropWhile]
      exact hc
    rcases List.mem_append.mp hsplit with h1 | h2
    · exact List.mem_takeWhile_imp h1
    · exact h c h2
  · intro h c hc
    exact h c ((lstrip_sfx l).subset hc)

theorem pyStrip_ne_nil_iff (l : List Char) :
    pyStrip l ≠ [] ↔ ∃ c ∈ l, isPySpace c = false := by
  rw [Ne, pyStrip_eq_nil_iff]
  push_neg
  simp

/-! ### Lemmas about line splitting and joining -/

theorem splitLines_ne_nil (s : List Char) : splitLines s ≠ [] := by
  cases s with
  | nil => simp [splitLines]
  | cons c rest =>
    by_cases hc : c = '\n'
    · simp [splitLines, hc]
    · simp only [splitLines, hc, if_false]
      cases splitLines rest <;> simp

theorem joinLines_cons (l x : List Char) (ls : List (List Char)) :
    joinLines (l :: x :: ls) = l ++ '\n' :: joinLines (x :: ls) := rfl

theorem join_splitLines (s : List Char) : joinLines (splitLines s) = s := by
  induction s with
  | nil => rfl
  | cons c rest ih =>
    by_cases hc : c = '\n'
    · subst hc
      simp only [splitLines, if_pos rfl]
      obtain ⟨h, t, ht⟩ : ∃ h t, splitLines rest = h :: t := by
        cases hsl : splitLines rest with
        | nil => exact absurd hsl (splitLines_ne_nil rest)
        | cons h t => exact ⟨h, t, rfl⟩
      rw [ht]
      rw [ht] at ih
      simpa [joinLines_cons] using ih
    · simp only [splitLines, hc, if_false]
      obtain ⟨h, t, ht⟩ : ∃ h t, splitLines rest = h :: t := by
        cases hsl : splitLines rest with
        | nil => exact absurd hsl (splitLines_ne_nil rest)
        | cons h t => exact ⟨h, t, rfl⟩
      rw [ht]
      rw [ht] at ih
      cases t with
      | nil =>
        simp only [joinLines] at ih ⊢
        rw [ih]
      | cons x t' =>
        rw [joinLines_cons] at ih ⊢
        simp only [List.cons_append]
        rw [ih]

theorem mem_splitLines_no_nl {l : List Char} {s : List Char}
    (h : l ∈ splitLines s) : '\n' ∉ l := by
  induction s generalizing l with
  | nil =>
    simp [splitLines] at h
    simp [h]
  | cons c rest ih =>
    by_cases hc : c = '\n'
    · rw [splitLines, if_pos hc] at h
      rcases List.mem_cons.mp h with rfl | h'
      · simp
      · exact ih h'
    · rw [splitLines, if_neg hc] at h
      cases hsl : splitLines rest with
      | nil => exact absurd hsl (splitLines_ne_nil rest)
      | cons hd t =>
        rw [hsl] at h
        rcases List.mem_cons.mp h with rfl | h'
        · intro hmem
          rcases List.mem_cons.mp hmem with heq | hmem'
          · exact hc heq.symm
          · exact ih (hsl ▸ List.mem_cons_self hd t) hmem'
        · exact ih (hsl ▸ List.mem_cons_of_mem hd h')

theorem splitLines_head_pfx {s h : List Char} {t : List (List Char)}
    (hs : splitLines s = h :: t) : h <+: s := by
  induction s generalizing h t with
  | nil =>
    have hs' : ([[]] : List (List Char)) = h :: t := hs
    injection hs' with h1 h2
    subst h1
    exact List.nil_prefix
  | cons c rest ih =>
    by_cases hc : c = '\n'
    · rw [splitLines, if_pos hc] at hs
      injection hs with h1 h2
      subst h1
      exact List.nil_prefix
    · rw [splitLines, if_neg hc] at hs
      cases hsl : splitLines rest with
      | nil => exact absurd hsl (splitLines_ne_nil rest)
      | cons hd t' =>
        rw [hsl] at hs
        have hs' : (c :: hd) :: t' = h :: t := hs
        injection hs' with h1 h2
        subst h1
        exact List.cons_prefix_cons.mpr ⟨rfl, ih hsl⟩

theorem mem_splitLines_ifx {l s : List Char} (h : l ∈ splitLines s) : l <:+: s := by
  induction s generalizing l with
  | nil =>
    simp [splitLines] at h
    simp [h]
  | cons c rest ih =>
    by_cases hc : c = '\n'
    · rw [splitLines, if_pos hc] at h
      rcases List.mem_cons.mp h with rfl | h'
      · exact List.nil_infix
      · exact List.infix_cons (ih h')
    · rw [splitLines, if_neg hc] at h
      cases hsl : splitLines rest with
      | nil => exact absurd hsl (splitLines_ne_nil rest)
      | cons hd t =>
        rw [hsl] at h
        rcases List.mem_cons.mp h with rfl | h'
        · exact (List.cons_prefix_cons.mpr ⟨rfl, splitLines_head_pfx hsl⟩).isInfix
        · exact List.infix_cons (ih (hsl ▸ List.mem_cons_of_mem hd h'))

theorem splitLines_no_nl {A : List Char} (h : '\n' ∉ A) : splitLines A = [A] := by
  induction A with
  | nil => rfl
  | cons c rest ih =>
    have hc : ¬ c = '\n' := fun he => h (he ▸ List.mem_cons_self c rest)
    rw [splitLines, if_neg hc, ih (fun hm => h (List.mem_cons_of_mem c hm))]

theorem splitLines_append {A : List Char} (B : List Char) (h : '\n' ∉ A) :
    splitLines (A ++ '\n' :: B) = A :: splitLines B := by
  induction A with
  | nil => simp [splitLines]
  | cons c rest ih =>
    have hc : ¬ c = '\n' := fun he => h (he ▸ List.mem_cons_self c rest)
    rw [List.cons_append, splitLines, if_neg hc,
        ih (fun hm => h (List.mem_cons_of_mem c hm))]

theorem mem_joinLines {a : Char} {L : List (List Char)} (h : a ∈ joinLines L) :
    a = '\n' ∨ ∃ l ∈ L, a ∈ l := by
  induction L with
  | nil => simp [joinLines] at h
  | cons l ls ih =>
    cases ls with
    | nil =>
      simp only [joinLines] at h
      exact Or.inr ⟨l, List.mem_cons_self _ _, h⟩
    | cons x ls' =>
      rw [joinLines_cons] at h
      rcases List.mem_append.mp h with h1 | h2
      · exact Or.inr ⟨l, List.mem_cons_self _ _, h1⟩
      · rcases List.mem_cons.mp h2 with rfl | h3
        · exact Or.inl rfl
        · rcases ih h3 with h4 | ⟨l', hl', ha⟩
          · exact Or.inl h4
          · exact Or.inr ⟨l', List.mem_cons_of_mem _ hl', ha⟩

theorem pfx_append_cons {pat A B : List Char} {c : Char} (h : pat <+: A ++ c :: B) :
    pat <+: A ∨ c ∈ pat := by
  induction A generalizing pat with
  | nil =>
    rcases List.prefix_cons_iff.mp (by simpa using h) with rfl | ⟨t, rfl, -⟩
    · exact Or.inl List.nil_prefix
    · exact Or.inr (List.mem_cons_self _ _)
  | cons a A' ih =>
    rcases List.prefix_cons_iff.mp (by simpa using h) with rfl | ⟨t, rfl, ht⟩
    · exact Or.inl List.nil_prefix
    · rcases ih ht with h1 | h2
      · exact Or.inl (List.cons_prefix_cons.mpr ⟨rfl, h1⟩)
      · exact Or.inr (List.mem_cons_of_mem _ h2)

theorem ifx_append_cons {pat A B : List Char} {c : Char} (hc : c ∉ pat)
    (h : pat <:+: A ++ c :: B) : pat <:+: A ∨ pat <:+: B := by
  induction A with
  | nil =>
    rcases List.infix_cons_iff.mp (by simpa using h) with hp | hi
    · rcases List.prefix_cons_iff.mp hp with rfl | ⟨t, rfl, -⟩
      · exact Or.inl List.nil_infix
      · exact absurd (List.mem_cons_self _ _) hc
    · exact Or.inr hi
  | cons a A' ih =>
    rcases List.infix_cons_iff.mp (by simpa using h) with hp | hi
    · have hp' : pat <+: (a :: A') ++ c :: B := by simpa using hp
      rcases pfx_append_cons hp' with h1 | h2
      · exact Or.inl h1.isInfix
      · exact absurd h2 hc
    · rcases ih hi with h1 | h2
      · exact Or.inl (List.infix_cons_iff.mpr (Or.inr h1))
      · exact Or.inr h2

theorem ifx_joinLines {pat : List Char} {L : List (List Char)}
    (hne : pat ≠ []) (hnl : '\n' ∉ pat) (h : pat <:+: joinLines L) :
    ∃ l ∈ L, pat <:+: l := by
  induction L with
  | nil => simp [joinLines, List.infix_nil] at h; exact absurd h hne
  | cons l ls ih =>
    cases ls with
    | nil => exact ⟨l, List.mem_cons_self _ _, h⟩
    | cons x ls' =>
      rw [joinLines_cons] at h
      rcases ifx_append_cons hnl h with h1 | h2
      · exact ⟨l, List.mem_cons_self _ _, h1⟩
      · obtain ⟨l', hl', hp⟩ := ih h2
        exact ⟨l', List.mem_cons_of_mem _ hl', hp⟩

/-! ### Lemmas about marker truncation -/

theorem beforeFirst_pfx (pat s : List Char) : beforeFirst pat s <+: s := by
  induction s with
  | nil => exact List.prefix_rfl
  | cons c rest ih =>
    by_cases hp : pat.isPrefixOf (c :: rest)
    · rw [beforeFirst, if_pos hp]
      exact List.nil_prefix
    · rw [beforeFirst, if_neg hp]
      exact List.cons_prefix_cons.mpr ⟨rfl, ih⟩

theorem not_ifx_beforeFirst {pat : List Char} (hne : pat ≠ []) (s : List Char) :
    ¬ pat <:+: beforeFirst pat s := by
  induction s with
  | nil => simpa [beforeFirst, List.infix_nil] using hne
  | cons c rest ih =>
    by_cases hp : pat.isPrefixOf (c :: rest)
    · rw [beforeFirst, if_pos hp]
      simpa [List.infix_nil] using hne
    · rw [beforeFirst, if_neg hp]
      intro hcontra
      rcases List.infix_cons_iff.mp hcontra with h1 | h2
      · have : pat <+: c :: rest :=
          h1.trans (List.cons_prefix_cons.mpr ⟨rfl, beforeFirst_pfx pat rest⟩)
        exact hp (List.isPrefixOf_iff_prefix.mpr this)
      · exact ih h2

/-! ### The line filter is a projection -/

theorem singleton_ifx_iff {a : Char} {l : List Char} : [a] <:+: l ↔ a ∈ l := by
  constructor
  · intro h
    exact h.mem (List.mem_cons_self a [])
  · intro h
    obtain ⟨s, t, rfl⟩ := List.append_of_mem h
    exact ⟨s, t, by simp⟩

theorem keepLine_iff (l : List Char) :
    keepLine l = true ↔
      pyStrip l ≠ [] ∧ pyStrip l ≠ ['>'] ∧ ∀ kw ∈ SKIP_KEYWORDS, ¬ kw <:+: l := by
  simp [keepLine, containsSub_iff, List.isEmpty_iff, not_or]
  tauto

theorem keepLine_of_ifx {l l' : List Char} (hps : pyStrip l' = pyStrip l)
    (hifx : l' <:+: l) (h : keepLine l = true) : keepLine l' = true := by
  rw [keepLine_iff] at h ⊢
  exact ⟨hps ▸ h.1, hps ▸ h.2.1,
    fun kw hkw hcontra => h.2.2 kw hkw (hcontra.trans hifx)⟩

theorem mem_joinLines_of_mem {a : Char} {l : List Char} {L : List (List Char)}
    (hl : l ∈ L) (ha : a ∈ l) : a ∈ joinLines L := by
  induction L with
  | nil => simp at hl
  | cons x ls ih =>
    cases ls with
    | nil =>
      simp at hl
      subst hl
      exact ha
    | cons x2 ls' =>
      rw [joinLines_cons]
      rcases List.mem_cons.mp hl with rfl | h'
      · exact List.mem_append.mpr (Or.inl ha)
      · exact List.mem_append.mpr (Or.inr (List.mem_cons_of_mem _ (ih h')))

theorem joinLines_cons_ne (l : List Char) {L : List (List Char)} (h : L ≠ []) :
    joinLines (l :: L) = l ++ '\n' :: joinLines L := by
  cases L with
  | nil => exact absurd rfl h
  | cons x ls => exact joinLines_cons l x ls

/-- Splitting the right-stripped join of non-blank newline-free lines
gives those lines back, with only the last one right-stripped. -/
theorem splitLines_rstrip_join (ls : List (List Char)) (z : List Char)
    (hcond : ∀ l ∈ ls ++ [z], pyStrip l ≠ [] ∧ '\n' ∉ l) :
    splitLines (rstrip (joinLines (ls ++ [z]))) = ls ++ [rstrip z] := by
  induction ls with
  | nil =>
    have hz := hcond z (by simp)
    have hnl : '\n' ∉ rstrip z := fun hm => hz.2 ((rstrip_pfx z).subset hm)
    simpa [joinLines] using splitLines_no_nl hnl
  | cons l ls' ih =>
    have hl := hcond l (by simp)
    have hz := hcond z (by simp)
    have hnsB : ∃ c ∈ '\n' :: joinLines (ls' ++ [z]), isPySpace c = false := by
      obtain ⟨c, hc, hcs⟩ := (pyStrip_ne_nil_iff z).mp hz.1
      exact ⟨c, List.mem_cons_of_mem _
        (mem_joinLines_of_mem (List.mem_append.mpr (Or.inr (by simp))) hc), hcs⟩
    have hnsM : ∃ c ∈ joinLines (ls' ++ [z]), isPySpace c = false := by
      obtain ⟨c, hc, hcs⟩ := (pyStrip_ne_nil_iff z).mp hz.1
      exact ⟨c, mem_joinLines_of_mem (List.mem_append.mpr (Or.inr (by simp))) hc, hcs⟩
    have e1 : joinLines ((l :: ls') ++ [z]) = l ++ '\n' :: joinLines (ls' ++ [z]) := by
      rw [List.cons_append]
      exact joinLines_cons_ne l (by simp)
    have e2 : rstrip (l ++ '\n' :: joinLines (ls' ++ [z]))
        = l ++ rstrip ('\n' :: joinLines (ls' ++ [z])) :=
      rstrip_append _ _ hnsB
    have e3 : rstrip ('\n' :: joinLines (ls' ++ [z]))
        = '\n' :: rstrip (joinLines (ls' ++ [z])) := by
      have := rstrip_append ['\n'] (joinLines (ls' ++ [z])) hnsM
      simpa using this
    rw [e1, e2, e3, splitLines_append _ hl.2,
        ih (fun x hx => hcond x (List.mem_cons_of_mem _ hx))]
    simp

/-- Stripping the join of non-blank newline-free lines strips the first
line on the left and the last on the right, leaving the rest intact. -/
theorem splitLines_pyStrip_join (l0 : List Char) (L : List (List Char))
    (hL : L ≠ [])
    (hcond : ∀ l ∈ l0 :: L, pyStrip l ≠ [] ∧ '\n' ∉ l) :
    splitLines (pyStrip (joinLines (l0 :: L)))
      = lstrip l0 :: splitLines (rstrip (joinLines L)) := by
  have h0 := hcond l0 (List.mem_cons_self _ _)
  have hns0 : ∃ c ∈ l0, isPySpace c = false := (pyStrip_ne_nil_iff l0).mp h0.1
  obtain ⟨mid, z, rfl⟩ : ∃ mid z, L = mid ++ [z] := by
    rcases List.eq_nil_or_concat L with rfl | ⟨mid, z, h'⟩
    · exact absurd rfl hL
    · exact ⟨mid, z, by rw [h', List.concat_eq_append]⟩
  have hz := hcond z (List.mem_cons_of_mem _ (by simp))
  have hnsB : ∃ c ∈ '\n' :: joinLines (mid ++ [z]), isPySpace c = false := by
    obtain ⟨c, hc, hcs⟩ := (pyStrip_ne_nil_iff z).mp hz.1
    exact ⟨c, List.mem_cons_of_mem _
      (mem_joinLines_of_mem (List.mem_append.mpr (Or.inr (by simp))) hc), hcs⟩
  have e1 : joinLines (l0 :: (mid ++ [z])) = l0 ++ '\n' :: joinLines (mid ++ [z]) :=
    joinLines_cons_ne l0 (by simp)
  have e2 : lstrip (l0 ++ '\n' :: joinLines (mid ++ [z]))
      = lstrip l0 ++ '\n' :: joinLines (mid ++ [z]) :=
    lstrip_append _ _ hns0
  have e3 : rstrip (lstrip l0 ++ '\n' :: joinLines (mid ++ [z]))
      = lstrip l0 ++ rstrip ('\n' :: joinLines (mid ++ [z])) :=
    rstrip_append _ _ hnsB
  have hnsM : ∃ c ∈ joinLines (mid ++ [z]), isPySpace c = false := by
    obtain ⟨c, hc, hcs⟩ := (pyStrip_ne_nil_iff z).mp hz.1
    exact ⟨c, mem_joinLines_of_mem (List.mem_append.mpr (Or.inr (by simp))) hc, hcs⟩
  have e4 : rstrip ('\n' :: joinLines (mid ++ [z]))
      = '\n' :: rstrip (joinLines (mid ++ [z])) := by
    have := rstrip_append ['\n'] (joinLines (mid ++ [z])) hnsM
    simpa using this
  have hnl0 : '\n' ∉ lstrip l0 := fun hm => h0.2 ((lstrip_sfx l0).subset hm)
  rw [show pyStrip (joinLines (l0 :: (mid ++ [z])))
        = rstrip (lstrip (joinLines (l0 :: (mid ++ [z])))) from rfl,
      e1, e2, e3, e4, splitLines_append _ hnl0]

/-- A string assembled by the line filter is left unchanged by a second
pass of the line filter. -/
theorem filterLines_fixed (L : List (List Char))
    (hk : ∀ l ∈ L, keepLine l = true) (hn : ∀ l ∈ L, '\n' ∉ l) :
    filterLines (pyStrip (joinLines L)) = pyStrip (joinLines L) := by
  cases L with
  | nil => decide
  | cons l0 L' =>
    have h0k := hk l0 (List.mem_cons_self _ _)
    have h0n := hn l0 (List.mem_cons_self _ _)
    have h0s : pyStrip l0 ≠ [] := ((keepLine_iff l0).mp h0k).1
    have key : (splitLines (pyStrip (joinLines (l0 :: L')))).filter keepLine
        = splitLines (pyStrip (joinLines (l0 :: L'))) := by
      apply List.filter_eq_self.mpr
      cases L' with
      | nil =>
        intro a ha
        have e : splitLines (pyStrip (joinLines [l0])) = [pyStrip l0] := by
          have hnl : '\n' ∉ pyStrip l0 := fun hm => h0n ((pyStrip_ifx l0).subset hm)
          simpa [joinLines] using splitLines_no_nl hnl
        rw [e] at ha
        rcases List.mem_cons.mp ha with rfl | h'
        · exact keepLine_of_ifx (pyStrip_idem l0) (pyStrip_ifx l0) h0k
        · simp at h'
      | cons l1 L'' =>
        intro a ha
        have hcond : ∀ l ∈ l0 :: l1 :: L'', pyStrip l ≠ [] ∧ '\n' ∉ l :=
          fun l hl => ⟨((keepLine_iff l).mp (hk l hl)).1, hn l hl⟩
        obtain ⟨mid, z, hLz⟩ : ∃ mid z, l1 :: L'' = mid ++ [z] := by
          rcases List.eq_nil_or_concat (l1 :: L'') with h' | ⟨mid, z, h'⟩
          · exact absurd h' (by simp)
          · exact ⟨mid, z, by rw [h', List.concat_eq_append]⟩
        rw [hLz] at hcond ha hk
        have e := splitLines_pyStrip_join l0 (mid ++ [z]) (by simp) hcond
        rw [e, splitLines_rstrip_join mid z
          (fun x hx => hcond x (List.mem_cons_of_mem _ hx))] at ha
        rcases List.mem_cons.mp ha with rfl | h'
        · exact keepLine_of_ifx (pyStrip_lstrip l0) (lstrip_sfx l0).isInfix h0k
        · rcases List.mem_append.mp h' with hmid | hz
          · exact hk a (List.mem_cons_of_mem _ (List.mem_append.mpr (Or.inl hmid)))
          · have hz' : a = rstrip z := by simpa using hz
            subst hz'
            have hzmem : z ∈ l0 :: (mid ++ [z]) :=
              List.mem_cons_of_mem _ (List.mem_append.mpr (Or.inr (by simp)))
            exact keepLine_of_ifx (pyStrip_rstrip z) (rstrip_pfx z).isInfix (hk z hzmem)
    show pyStrip (joinLines
        ((splitLines (pyStrip (joinLines (l0 :: L')))).filter keepLine))
        = pyStrip (joinLines (l0 :: L'))
    rw [key, join_splitLines, pyStrip_idem]

/-- The line filter is idempotent. -/
theorem filterLines_idem (r : List Char) :
    filterLines (filterLines r) = filterLines r := by
  have hk : ∀ l ∈ (splitLines r).filter keepLine, keepLine l = true :=
    fun l hl => (List.mem_filter.mp hl).2
  have hn : ∀ l ∈ (splitLines r).filter keepLine, '\n' ∉ l :=
    fun l hl => mem_splitLines_no_nl (List.mem_filter.mp hl).1
  exact filterLines_fixed ((splitLines r).filter keepLine) hk hn

/-! ### Sanitiser output contains no markers -/

theorem no_gt_filterLines (r : List Char) : '>' ∉ filterLines r := by
  intro hmem
  have h1 : '>' ∈ joinLines ((splitLines r).filter keepLine) :=
    (pyStrip_ifx _).subset hmem
  rcases mem_joinLines h1 with heq | ⟨l, hl, hc⟩
  · exact absurd heq (by decide)
  · have hk := (List.mem_filter.mp hl).2
    have hkw := ((keepLine_iff l).mp hk).2.2 ['>'] (by decide)
    exact hkw (singleton_ifx_iff.mpr hc)

theorem ifx_filterLines {pat r : List Char} (hne : pat ≠ []) (hnl : '\n' ∉ pat)
    (h : pat <:+: filterLines r) : pat <:+: r := by
  obtain ⟨l, hl, hp⟩ := ifx_joinLines hne hnl (h.trans (pyStrip_ifx _))
  exact hp.trans (mem_splitLines_ifx (List.mem_filter.mp hl).1)

theorem truncAtStats_no_both (r : List Char) :
    ¬(LBRACKET <:+: truncAtStats r ∧ TPS <:+: truncAtStats r) := by
  unfold truncAtStats
  by_cases hg : (containsSub LBRACKET r && containsSub TPS r) = true
  · rw [if_pos hg]
    intro hcontra
    exact not_ifx_beforeFirst (by decide) r hcontra.1
  · rw [if_neg hg]
    intro hcontra
    apply hg
    rw [Bool.and_eq_true]
    exact ⟨(containsSub_iff _ _).mpr hcontra.1, (containsSub_iff _ _).mpr hcontra.2⟩

/-- A string produced by the full marker/noise pipeline is a fixed point
of the whole sanitiser. -/
theorem sanitize_filterLines_fixed (w : List Char)
    (hself : filterLines w = w) (hgt : '>' ∉ w)
    (hstats : ¬(LBRACKET <:+: w ∧ TPS <:+: w)) :
    sanitize w = w := by
  have hstrip : pyStrip w = w := by
    conv_lhs => rw [← hself]
    rw [show pyStrip (filterLines w)
          = pyStrip (pyStrip (joinLines ((splitLines w).filter keepLine))) from rfl,
        pyStrip_idem]
    exact hself
  have hga : ¬ containsSub IM_START_ASSISTANT w = true := fun hc =>
    hgt (((containsSub_iff _ _).mp hc).mem (by decide))
  have hge : ¬ containsSub IM_END w = true := fun hc =>
    hgt (((containsSub_iff _ _).mp hc).mem (by decide))
  have hgs : ¬ (containsSub LBRACKET w && containsSub TPS w) = true := by
    rw [Bool.and_eq_true]
    rintro ⟨h1, h2⟩
    exact hstats ⟨(containsSub_iff _ _).mp h1, (containsSub_iff _ _).mp h2⟩
  show sanitizeCore (pyStrip w) = w
  rw [hstrip]
  show filterLines (truncAtStats (truncAtImEnd (dropBeforeAssistant w))) = w
  rw [show dropBeforeAssistant w = w by unfold dropBeforeAssistant; rw [if_neg hga],
      show truncAtImEnd w = w by unfold truncAtImEnd; rw [if_neg hge],
      show truncAtStats w = w by unfold truncAtStats; rw [if_neg hgs]]
  exact hself

/-! ### Prompt rendering helper -/

theorem foldl_renderTurn (l : List Turn) (acc : List Char) :
    l.foldl (fun a t => a ++ renderTurn t) acc = acc ++ (l.map renderTurn).flatten := by
  induction l generalizing acc with
  | nil => simp
  | cons t ts ih => simp [ih]

theorem format_prompt_history (history : List Turn) (u : List Char) :
    (format_prompt history u).history = history ++ [⟨Role.user, u⟩] := rfl

theorem format_prompt_prompt (history : List Turn) (u : List Char) :
    (format_prompt history u).prompt
      = SYSTEM_PREAMBLE ++ (lastTurns 20 (history ++ [⟨Role.user, u⟩])).foldl
          (fun acc t => acc ++ renderTurn t) [] ++ ASSISTANT_TAG := rfl

/-! ### Claim theorems -/

/-- Claim C1 (counterexample): a captured "goodbye" makes the loop speak
the farewell but return to `WAITING_FOR_WAKE`, not `SHUTTING_DOWN` — the
process keeps running and listens for the wake word again. -/
theorem c1_exit_phrase_counterexample :
    (step CommOutcome.exnOther (AState.listeningForCommand 0) []
        (Event.captured (some "goodbye".data))).state = AState.waitingForWake ∧
    AState.waitingForWake ≠ AState.shuttingDown ∧
    Effect.speakCall "Goodbye!".data ∈
      (step CommOutcome.exnOther (AState.listeningForCommand 0) []
        (Event.captured (some "goodbye".data))).effects := by
  decide

/-- Claim C1 (amended): when the captured command, after wake-word
stripping, lowercases and strips to an exit phrase, the assistant speaks
"Goodbye!" and the loop leaves conversation mode back to
`WAITING_FOR_WAKE`; only an interrupt signal enters `SHUTTING_DOWN`. -/
theorem c1_exit_returns_to_wake (o : CommOutcome) (h : List Turn) (n : Nat)
    (cmd : List Char)
    (hexit : pyStrip (pyLower (stripWakeWords cmd).1) ∈ EXIT_PHRASES) :
    step o (AState.listeningForCommand n) h (Event.captured (some cmd))
      = ⟨AState.waitingForWake, h,
         (stripWakeWords cmd).2 ++ [Effect.speakCall "Goodbye!".data]⟩ ∧
    step o (AState.listeningForCommand n) h Event.interrupt
      = ⟨AState.shuttingDown, h, []⟩ := by
  have hc : EXIT_PHRASES.contains (pyStrip (pyLower (stripWakeWords cmd).1)) = true :=
    List.elem_iff.mpr hexit
  have hhc : handle_command h (stripWakeWords cmd).1 o
      = ⟨h, [Effect.speakCall "Goodbye!".data], false⟩ := by
    unfold handle_command
    rw [if_pos hc]
  constructor
  · simp [step, hhc]
  · simp [step]

/-- Claim C1 witness: the amended theorem applied to the command
"goodbye". -/
theorem c1_exit_returns_to_wake_witness :
    step CommOutcome.exnOther (AState.listeningForCommand 0) []
        (Event.captured (some "goodbye".data))
      = ⟨AState.waitingForWake, [],
         (stripWakeWords "goodbye".data).2 ++ [Effect.speakCall "Goodbye!".data]⟩ :=
  (c1_exit_returns_to_wake CommOutcome.exnOther [] 0 "goodbye".data (by decide)).1

/-- Claim C2 (counterexample): the raw stdout "Loading model" is
non-empty, sanitises to the empty string, yet `query_llm` returns the
empty string rather than the apology, and `speak` of the empty string is
a no-op — the assistant answers with silence. -/
theorem c2_silence_counterexample :
    sanitize "Loading model".data = [] ∧
    (query_llm [] "hi".data (CommOutcome.completed "Loading model".data [] 0)).response
        = [] ∧
    (query_llm [] "hi".data (CommOutcome.completed "Loading model".data [] 0)).response
        ≠ APOLOGY_EMPTY ∧
    speak ⟨true, false, false, 0⟩ [] = [] := by
  decide

/-- Claim C2 (amended): the fallback apology is substituted only when the
raw stdout is empty (or whitespace) before sanitisation; when a non-empty
raw output sanitises to nothing, the empty string is returned and handed
to `speak`, which silently does nothing. -/
theorem c2_empty_response_handling (h : List Turn) (u out err : List Char)
    (rc : Int) (env : SpeakEnv) :
    ((pyStrip out).isEmpty = true →
      (query_llm h u (CommOutcome.completed out err rc)).response = APOLOGY_EMPTY) ∧
    ((pyStrip out).isEmpty = false → sanitizeCore (pyStrip out) = [] →
      (query_llm h u (CommOutcome.completed out err rc)).response = [] ∧
      speak env (query_llm h u (CommOutcome.completed out err rc)).response = []) := by
  constructor
  · intro he
    simp [query_llm, he]
  · intro hne hsan
    have hresp : (query_llm h u (CommOutcome.completed out err rc)).response = [] := by
      simp [query_llm, hne, hsan]
    refine ⟨hresp, ?_⟩
    rw [hresp]
    rfl

/-- Claim C2 witness: the amended theorem applied to empty stdout and to
the all-noise stdout "Loading model". -/
theorem c2_empty_response_handling_witness :
    (query_llm [] "hi".data (CommOutcome.completed [] [] 0)).response = APOLOGY_EMPTY ∧
    (query_llm [] "hi".data
        (CommOutcome.completed "Loading model".data [] 0)).response = [] ∧
    speak ⟨true, false, false, 0⟩
      (query_llm [] "hi".data
        (CommOutcome.completed "Loading model".data [] 0)).response = [] :=
  ⟨(c2_empty_response_handling [] "hi".data [] [] 0 ⟨true, false, false, 0⟩).1 (by decide),
   ((c2_empty_response_handling [] "hi".data "Loading model".data [] 0
      ⟨true, false, false, 0⟩).2 (by decide) (by decide)).1,
   ((c2_empty_response_handling [] "hi".data "Loading model".data [] 0
      ⟨true, false, false, 0⟩).2 (by decide) (by decide)).2⟩

/-- Claim C3 (code bug): a command that is exactly a wake phrase strips
to nothing, so "Yes?" is spoken — but the `continue` only advances the
inner `for` loop, and the empty remainder is still handed to
`handle_command`, which queries the LLM with the empty command instead of
returning to listen. -/
theorem c3_wake_only_command_still_processed :
    Effect.speakCall "Yes?".data ∈
      (step (CommOutcome.completed "ok".data [] 0) (AState.listeningForCommand 0) []
        (Event.captured (some "hey qwen".data))).effects ∧
    Effect.queryLLM [] ∈
      (step (CommOutcome.completed "ok".data [] 0) (AState.listeningForCommand 0) []
        (Event.captured (some "hey qwen".data))).effects := by
  decide

/-- Claim C4: after appending the user turn, the rendered prompt is the
fixed system preamble, then the role-tagged blocks of exactly the most
recent `min 20 n` turns in chronological order, then the open assistant
tag; the older turns are retained in the history but not rendered. -/
theorem c4_prompt_structure (history : List Turn) (u : List Char) :
    ∃ dropped kept : List Turn,
      (format_prompt history u).history = dropped ++ kept ∧
      kept.length = min 20 (format_prompt history u).history.length ∧
      kept.length ≤ 20 ∧
      (format_prompt history u).prompt
        = SYSTEM_PREAMBLE ++ (kept.map renderTurn).flatten ++ ASSISTANT_TAG := by
  refine ⟨(history ++ [(⟨Role.user, u⟩ : Turn)]).take
            ((history ++ [(⟨Role.user, u⟩ : Turn)]).length - 20),
          (history ++ [(⟨Role.user, u⟩ : Turn)]).drop
            ((history ++ [(⟨Role.user, u⟩ : Turn)]).length - 20),
          ?_, ?_, ?_, ?_⟩
  · rw [format_prompt_history]
    exact (List.take_append_drop _ _).symm
  · rw [format_prompt_history, List.length_drop]
    omega
  · rw [List.length_drop]
    omega
  · rw [format_prompt_prompt]
    unfold lastTurns
    rw [foldl_renderTurn]
    simp

/-- Claim C5 (counterexample): on timeout the runner's only process
action is an immediate kill — no terminate signal precedes it and no
grace period is waited. -/
theorem c5_timeout_counterexample :
    (query_llm [] "hi".data
        (CommOutcome.timedOut "partial answer".data [])).procActions
      = [ProcAction.kill] ∧
    ProcAction.terminate ∉
      (query_llm [] "hi".data
        (CommOutcome.timedOut "partial answer".data [])).procActions := by
  decide

/-- Claim C5 (amended): when the inference subprocess exceeds its timeout
the runner kills it immediately (no terminate signal, no grace period),
still returns the partial stdout, records the out-of-band sentinel `-1`
as the return code, and — when any output was produced — treats the run
as usable: the sanitised partial output is returned and recorded, not an
error apology. -/
theorem c5_timeout_behavior (h : List Turn) (u out err : List Char)
    (hne : (pyStrip out).isEmpty = false) :
    (query_llm h u (CommOutcome.timedOut out err)).procActions = [ProcAction.kill] ∧
    (query_llm h u (CommOutcome.timedOut out err)).returncode = some (-1) ∧
    (query_llm h u (CommOutcome.timedOut out err)).response
        = sanitizeCore (pyStrip out) ∧
    (query_llm h u (CommOutcome.timedOut out err)).history
        = h ++ [⟨Role.user, u⟩, ⟨Role.assistant, sanitizeCore (pyStrip out)⟩] := by
  refine ⟨?_, ?_, ?_, ?_⟩ <;> simp [query_llm, format_prompt, hne]

/-- Claim C5 witness: the amended theorem applied to the partial output
"partial answer". -/
theorem c5_timeout_behavior_witness :
    (query_llm [] "hi".data
        (CommOutcome.timedOut "partial answer".data [])).procActions
      = [ProcAction.kill] ∧
    (query_llm [] "hi".data
        (CommOutcome.timedOut "partial answer".data [])).returncode = some (-1) ∧
    (query_llm [] "hi".data
        (CommOutcome.timedOut "partial answer".data [])).response
      = sanitizeCore (pyStrip "partial answer".data) ∧
    (query_llm [] "hi".data
        (CommOutcome.timedOut "partial answer".data [])).history
      = [] ++ [⟨Role.user, "hi".data⟩,
               ⟨Role.assistant, sanitizeCore (pyStrip "partial answer".data)⟩] :=
  c5_timeout_behavior [] "hi".data "partial answer".data [] (by decide)

/-- Claim C6: the sanitiser is idempotent — sanitising already-sanitised
text changes nothing, for every input string. -/
theorem c6_sanitize_idempotent (x : List Char) :
    sanitize (sanitize x) = sanitize x := by
  show sanitize (sanitizeCore (pyStrip x)) = sanitizeCore (pyStrip x)
  apply sanitize_filterLines_fixed
  · exact filterLines_idem _
  · exact no_gt_filterLines _
  · rintro ⟨h1, h2⟩
    exact truncAtStats_no_both (truncAtImEnd (dropBeforeAssistant (pyStrip x)))
      ⟨ifx_filterLines (by decide) (by decide) h1,
       ifx_filterLines (by decide) (by decide) h2⟩

/-- Claim C7: sanitising the raw text
"blah<|im_start|>assistant\nHello there<|im_end|>\n[12 t/s]" yields
exactly "Hello there". -/
theorem c7_sanitize_example :
    sanitize "blah<|im_start|>assistant\nHello there<|im_end|>\n[12 t/s]".data
      = "Hello there".data := by
  decide

/-- Claim C8 (counterexample): when playback raises an exception, the
F5-TTS path creates the temporary wav file but never reaches the unlink
call — the artifact is not deleted. -/
theorem c8_artifact_counterexample :
    AudioAction.createTempWav ∈ speak ⟨true, false, true, 0⟩ "Hello".data ∧
    AudioAction.unlinkTemp ∉ speak ⟨true, false, true, 0⟩ "Hello".data := by
  decide

/-- Claim C8 (amended): the temporary audio artifact is deleted after
playback whenever synthesis and playback complete without raising — in
particular regardless of the playback utility's exit status, which the
code never inspects; an exception during synthesis or playback skips the
deletion and falls back to espeak. -/
theorem c8_artifact_cleanup (env : SpeakEnv) (text : List Char)
    (hf5 : env.f5Ready = true) (hinf : env.inferRaises = false)
    (hplay : env.playRaises = false) (hne : (pyStrip text).isEmpty = false) :
    speak env text
      = [AudioAction.createTempWav,
         AudioAction.f5Infer (collapseNewlines (stripMarkdown text)),
         AudioAction.aplay, AudioAction.unlinkTemp] := by
  simp [speak, hf5, hinf, hplay, hne]

/-- Claim C8 witness: the amended theorem applied to "Hello" with a
non-zero playback exit status. -/
theorem c8_artifact_cleanup_witness :
    speak ⟨true, false, false, 7⟩ "Hello".data
      = [AudioAction.createTempWav,
         AudioAction.f5Infer (collapseNewlines (stripMarkdown "Hello".data)),
         AudioAction.aplay, AudioAction.unlinkTemp] :=
  c8_artifact_cleanup ⟨true, false, false, 7⟩ "Hello".data rfl rfl rfl (by decide)

/-- Claim C9: in conversation mode a silent capture increments the
silence counter, the third consecutive silence speaks the dismissal and
returns to `WAITING_FOR_WAKE`, and any successful capture resets the
counter to 0 (every post-capture state that remains in
`LISTENING_FOR_COMMAND` carries counter 0). -/
theorem c9_silence_counter (o : CommOutcome) (h : List Turn) :
    (∀ n, n + 1 < 3 →
      step o (AState.listeningForCommand n) h (Event.captured none)
        = ⟨AState.listeningForCommand (n + 1), h, []⟩) ∧
    (∀ n, 3 ≤ n + 1 →
      step o (AState.listeningForCommand n) h (Event.captured none)
        = ⟨AState.waitingForWake, h, [Effect.speakCall DISMISSAL]⟩) ∧
    (∀ n cmd m,
      (step o (AState.listeningForCommand n) h (Event.captured (some cmd))).state
          = AState.listeningForCommand m → m = 0) := by
  refine ⟨?_, ?_, ?_⟩
  · intro n hn
    simp only [step]
    rw [if_neg (by omega)]
  · intro n hn
    simp only [step]
    rw [if_pos hn]
  · intro n cmd m hst
    simp only [step] at hst
    by_cases hkg : (handle_command h (stripWakeWords cmd).1 o).keepGoing = true
    · rw [if_pos hkg] at hst
      simp at hst
      exact hst.symm
    · rw [if_neg hkg] at hst
      simp at hst

/-- Claim C9 witness: the counter theorem applied at counters 0 and 2 and
to the command "hello". -/
theorem c9_silence_counter_witness :
    step CommOutcome.exnOther (AState.listeningForCommand 0) [] (Event.captured none)
      = ⟨AState.listeningForCommand 1, [], []⟩ ∧
    step CommOutcome.exnOther (AState.listeningForCommand 2) [] (Event.captured none)
      = ⟨AState.waitingForWake, [], [Effect.speakCall DISMISSAL]⟩ :=
  ⟨(c9_silence_counter CommOutcome.exnOther []).1 0 (by decide),
   (c9_silence_counter CommOutcome.exnOther []).2.1 2 (by decide)⟩

/-- Claim C10: every query appends the user turn unconditionally; an
assistant turn (holding the sanitised output, never an apology) is
appended exactly when the subprocess produced stdout that is non-empty
after stripping; on empty output, timeout or exception the fixed apology
is returned but not recorded, leaving the user turn with no following
assistant turn. -/
theorem c10_history_discipline (h : List Turn) (u : List Char) (o : CommOutcome) :
    (query_llm h u o).history
      = h ++ ⟨Role.user, u⟩ ::
        (match o with
         | CommOutcome.completed out _ _ =>
           if (pyStrip out).isEmpty then []
           else [⟨Role.assistant, sanitizeCore (pyStrip out)⟩]
         | CommOutcome.timedOut out _ =>
           if (pyStrip out).isEmpty then []
           else [⟨Role.assistant, sanitizeCore (pyStrip out)⟩]
         | CommOutcome.exnTimeout => []
         | CommOutcome.exnOther => []) ∧
    (query_llm h u o).response
      = (match o with
         | CommOutcome.completed out _ _ =>
           if (pyStrip out).isEmpty then APOLOGY_EMPTY
           else sanitizeCore (pyStrip out)
         | CommOutcome.timedOut out _ =>
           if (pyStrip out).isEmpty then APOLOGY_EMPTY
           else sanitizeCore (pyStrip out)
         | CommOutcome.exnTimeout => APOLOGY_TIMEOUT
         | CommOutcome.exnOther => APOLOGY_ERROR) := by
  cases o with
  | completed out err rc =>
    by_cases he : (pyStrip out).isEmpty = true <;>
      simp [query_llm, format_prompt, he]
  | timedOut out err =>
    by_cases he : (pyStrip out).isEmpty = true <;>
      simp [query_llm, format_prompt, he]
  | exnTimeout => simp [query_llm, format_prompt]
  | exnOther => simp [query_llm, format_prompt]

end QwenVoice
